import Mathlib

set_option linter.unusedSectionVars false
set_option linter.unusedVariables false

/-!
Verification development for libcppwrap.

This file gives a shallow embedding of the two parts of the repository that the
properties below are about:

* `w::handle<Resource, Closed, CloseFunc>` from `src/include/w/handle.hpp`:
  a move-only RAII handle.  A handle object is its single data member
  `_resource` (line 163).  The side effect of interest, invocations of
  `CloseFunc`, is made explicit: every operation that can call `CloseFunc`
  threads a trace (`List R`) of the arguments passed to `CloseFunc`, in call
  order.  Object identity (needed for the self-move-assignment guard
  `&other != this` and for the at-most-one-owner invariant) is modelled by a
  `World`: a finite association list from numeric object identities to live
  handle objects, together with the global `CloseFunc` trace.

* `wx::number<T>` (unsigned-integral overload) from `src/include/wx/string.hpp`
  lines 30-42, together with a model of the C standard library function
  `strtoull` it delegates to.  `strtoull` is not part of this repository; it is
  modelled from its C-standard contract (whitespace skip, optional sign with
  modular negation of the result for `-`, digit accumulation with saturation at
  `ULLONG_MAX` and `ERANGE`), for bases 2..36 without the base-16 `0x` prefix
  and base-0 autodetection, which the properties below do not exercise.

Throughout, `R` is the `Resource` type parameter (required by the template to
be nothrow-copyable, nothrow-swappable and equality-comparable; equality is
the only structure the embedding needs, hence `[DecidableEq R]`), and the
`Closed` sentinel is passed explicitly to every operation that mentions it.
-/

section HandleModel

variable {R : Type} [DecidableEq R]

/-- The state of one `w::handle` object: its single data member `_resource`
(`src/include/w/handle.hpp` line 163). -/
structure handle (R : Type) where
  _resource : R
  deriving DecidableEq

/-- Owning constructor `handle(Resource resource) noexcept : _resource(resource)`
(line 53). -/
def handle.ctor (resource : R) : handle R :=
  ⟨resource⟩

/-- Default constructor `handle() noexcept : handle(Closed)` (line 46): it
delegates to the owning constructor applied to the sentinel. -/
def handle.ctorDefault (Closed : R) : handle R :=
  handle.ctor Closed

/-- Move constructor `handle(handle&& other) noexcept : _resource(Closed)
{ std::swap(_resource, other._resource); }` (lines 64-67).  Returns the pair
(newly constructed handle, source after the move): the new object is first
initialised to `Closed` and then swapped with the source, so the new object
holds the source's old value and the source holds `Closed`. -/
def handle.moveCtor (Closed : R) (other : handle R) : handle R × handle R :=
  (⟨other._resource⟩, ⟨Closed⟩)

/-- Member `close()` (lines 136-147): a local `resource` initialised to
`Closed` is swapped with `_resource`, and `CloseFunc` is invoked on the local
copy iff it differs from `Closed`.  Returns (handle after the call, trace after
the call); the trace records the `CloseFunc` invocation when it happens. -/
def handle.close (Closed : R) (h : handle R) (tr : List R) : handle R × List R :=
  if Closed ≠ h._resource then (⟨Closed⟩, tr ++ [h._resource]) else (⟨Closed⟩, tr)

/-- Destructor `~handle() noexcept { close(); }` (line 90). -/
def handle.dtor (Closed : R) (h : handle R) (tr : List R) : handle R × List R :=
  handle.close Closed h tr

/-- Move assignment `operator=(handle&& other) noexcept` body for the case
`&other != this` (lines 76-85): `close()` on the destination, then
`std::swap(_resource, other._resource)`.  Arguments are (destination `*this`,
source `other`, trace); the result is (destination, source, trace) after the
assignment.  After `close()` the destination holds `Closed`, so the swap moves
the source's value into the destination and `Closed` into the source.  The
`&other == this` case is handled by the `World` step function below, where
object identity exists. -/
def handle.moveAssign (Closed : R) (this other : handle R) (tr : List R) :
    handle R × handle R × List R :=
  (⟨other._resource⟩,
   ⟨(handle.close Closed this tr).1._resource⟩,
   (handle.close Closed this tr).2)

/-- Member `release()` (lines 154-159): a local `resource` initialised to
`Closed` is swapped with `_resource` and returned; `CloseFunc` is not invoked
(the function does not touch it).  Returns (returned raw value, handle after
the call). -/
def handle.release (Closed : R) (h : handle R) : R × handle R :=
  (h._resource, ⟨Closed⟩)

/-- Member `get()` (line 98): returns `_resource`. -/
def handle.get (h : handle R) : R :=
  h._resource

/-- Member `operator bool()` (line 129): returns `Closed != _resource`. -/
def handle.toBool (Closed : R) (h : handle R) : Bool :=
  decide (Closed ≠ h._resource)

end HandleModel

section NumberModel

/-- The value `ULLONG_MAX` = 2^64 - 1 of a 64-bit `unsigned long long`. -/
def ULLONG_MAX : Nat :=
  2 ^ 64 - 1

/-- Numeric value of a character as a digit, per `strtoull`: `0`-`9` map to
0-9, `a`-`z` and `A`-`Z` map to 10-35. -/
def digitVal (c : Char) : Option Nat :=
  if 48 ≤ c.toNat ∧ c.toNat ≤ 57 then some (c.toNat - 48)
  else if 97 ≤ c.toNat ∧ c.toNat ≤ 122 then some (c.toNat - 97 + 10)
  else if 65 ≤ c.toNat ∧ c.toNat ≤ 90 then some (c.toNat - 65 + 10)
  else none

/-- Whitespace in the `"C"` locale, as classified by `isspace`. -/
def isSpaceC (c : Char) : Bool :=
  decide (c.toNat = 32 ∨ (9 ≤ c.toNat ∧ c.toNat ≤ 13))

/-- Drops the longest leading run of `"C"`-locale whitespace. -/
def skipSpaces : List Char → List Char
  | [] => []
  | c :: rest => if isSpaceC c then skipSpaces rest else c :: rest

/-- Reads the longest leading run of base-`base` digits, returning the
accumulated magnitude (as an unbounded natural number), the number of digits
consumed, and the remaining characters. -/
def readDigits (base : Nat) (acc : Nat) (nd : Nat) : List Char → Nat × Nat × List Char
  | [] => (acc, nd, [])
  | c :: rest =>
    match digitVal c with
    | some d => if d < base then readDigits base (acc * base + d) (nd + 1) rest
                else (acc, nd, c :: rest)
    | none => (acc, nd, c :: rest)

/-- Result of a `strtoull` call: the returned value, whether a conversion was
performed (`endptr` differs from the input pointer exactly when it was), the
characters after the consumed prefix (`rest = []` means `*end == '\0'`), and
whether `errno` was set to `ERANGE`. -/
structure StrtoullOut where
  value : Nat
  converted : Bool
  rest : List Char
  erange : Bool
  deriving DecidableEq

/-- Modelled from the C standard contract of `strtoull` (the C library code is
not part of this repository): skip whitespace, read an optional `-` or `+`
sign, then base-`base` digits.  If no digit is consumed, no conversion is
performed, `endptr` is left at the start of the string and 0 is returned.  If
the accumulated magnitude exceeds `ULLONG_MAX`, `ULLONG_MAX` is returned with
`errno = ERANGE`.  Otherwise the magnitude is returned, negated modulo 2^64
when the sign was `-` (the C standard specifies that for a leading minus sign
the conversion result is negated in the unsigned return type, i.e. wraps
modularly; it is not rejected).  The base-16 `0x` prefix and base-0
autodetection are not modelled (bases 2..36, literal digits only). -/
def strtoull (s : List Char) (base : Nat) : StrtoullOut :=
  let s1 := skipSpaces s
  let signAndRest : Bool × List Char :=
    match s1 with
    | [] => (false, [])
    | c :: rest =>
      if c = '-' then (true, rest)
      else if c = '+' then (false, rest)
      else (false, c :: rest)
  let out := readDigits base 0 0 signAndRest.2
  if out.2.1 = 0 then ⟨0, false, s, false⟩
  else if ULLONG_MAX < out.1 then ⟨ULLONG_MAX, true, out.2.2, true⟩
  else ⟨(if signAndRest.1 then (2 ^ 64 - out.1 % 2 ^ 64) % 2 ^ 64 else out.1),
        true, out.2.2, false⟩

/-- The unsigned-integral overload of `wx::number<T>` (`src/include/wx/string.hpp`
lines 30-42), for a type `T` whose maximal value is `Tmax`:
`errno = 0; l = strtoull(str, &end, base); if (end == str || *end) throw
runtime_error; else if (l > max<T> || (l == ULLONG_MAX && errno == ERANGE))
throw range_error; return l;`.  Thrown exceptions are modelled as
`Except.error` with the exception message. -/
def wx.number (Tmax : Nat) (s : List Char) (base : Nat) : Except String Nat :=
  let l := strtoull s base
  if l.converted = false ∨ l.rest ≠ [] then Except.error "invalid numeric string"
  else if Tmax < l.value ∨ (l.value = ULLONG_MAX ∧ l.erange = true) then
    Except.error "number is out of range"
  else Except.ok l.value

end NumberModel

section WorldModel

variable {R : Type} [DecidableEq R]

/-- Looks up the live handle object with identity `i`. -/
def findH : List (Nat × handle R) → Nat → Option (handle R)
  | [], _ => none
  | p :: t, i => if p.1 = i then some p.2 else findH t i

/-- Overwrites the state of the live handle object with identity `i` (leaves
the list unchanged where the identity does not occur). -/
def setH : List (Nat × handle R) → Nat → handle R → List (Nat × handle R)
  | [], _, _ => []
  | p :: t, i, h => if p.1 = i then (i, h) :: setH t i h else p :: setH t i h

/-- Removes the live handle object with identity `i`. -/
def delH : List (Nat × handle R) → Nat → List (Nat × handle R)
  | [], _ => []
  | p :: t, i => if p.1 = i then delH t i else p :: delH t i

/-- A collection of live `w::handle` objects (an association list from object
identity to object state), the global trace of `CloseFunc` invocations, and a
fresh identity for the next constructed object. -/
structure World (R : Type) where
  handles : List (Nat × handle R)
  trace : List R
  nextId : Nat
  deriving DecidableEq

/-- Well-formedness of a `World`: object identities are distinct (they model
distinct C++ objects) and `nextId` is fresh. -/
def World.WF (w : World R) : Prop :=
  (w.handles.map Prod.fst).Nodup ∧ ∀ k ∈ w.handles.map Prod.fst, k < w.nextId

instance (w : World R) : Decidable w.WF := by
  unfold World.WF
  infer_instance

/-- The operations a client can perform on the handle objects of a `World`.
There is no copy operation: the source deletes the copy constructor and copy
assignment (`src/include/w/handle.hpp` lines 55-56), so move transfer is the
only way a resource value can travel between handles. -/
inductive Op where
  | ctorDefault : Op
  | moveCtor (src : Nat) : Op
  | moveAssign (dst src : Nat) : Op
  | close (i : Nat) : Op
  | release (i : Nat) : Op
  | dtor (i : Nat) : Op
  deriving DecidableEq

/-- Whether the operation is a `release()` (ownership detach) call. -/
def Op.isRelease : Op → Bool
  | .release _ => true
  | _ => false

/-- One client operation on a `World`.  Each branch is the corresponding
member function of `w::handle` (embedded above) applied to the state of the
object(s) it involves.  An operation naming an identity with no live object
(which in C++ would not even compile, or would be use-after-destruction) is a
no-op.  `moveAssign` with `dst = src` is the `&other == this` branch of
`operator=` (line 78): nothing happens.  `dtor` removes the object after
running the destructor body. -/
def World.exec (Closed : R) (w : World R) : Op → World R
  | .ctorDefault =>
    ⟨w.handles ++ [(w.nextId, handle.ctorDefault Closed)], w.trace, w.nextId + 1⟩
  | .moveCtor src =>
    match findH w.handles src with
    | some h =>
      ⟨setH w.handles src (handle.moveCtor Closed h).2
          ++ [(w.nextId, (handle.moveCtor Closed h).1)],
       w.trace, w.nextId + 1⟩
    | none => w
  | .moveAssign dst src =>
    if dst = src then w
    else
      match findH w.handles dst, findH w.handles src with
      | some hd, some hs =>
        ⟨setH (setH w.handles dst (handle.moveAssign Closed hd hs w.trace).1) src
            (handle.moveAssign Closed hd hs w.trace).2.1,
         (handle.moveAssign Closed hd hs w.trace).2.2, w.nextId⟩
      | some _, none => w
      | none, _ => w
  | .close i =>
    match findH w.handles i with
    | some h =>
      ⟨setH w.handles i (handle.close Closed h w.trace).1,
       (handle.close Closed h w.trace).2, w.nextId⟩
    | none => w
  | .release i =>
    match findH w.handles i with
    | some h =>
      ⟨setH w.handles i (handle.release Closed h).2, w.trace, w.nextId⟩
    | none => w
  | .dtor i =>
    match findH w.handles i with
    | some h =>
      ⟨delH w.handles i, (handle.dtor Closed h w.trace).2, w.nextId⟩
    | none => w

/-- Runs a sequence of client operations left to right. -/
def World.execList (Closed : R) (w : World R) : List Op → World R
  | [] => w
  | op :: ops => World.execList Closed (World.exec Closed w op) ops

/-- Number of occurrences of `v` in a list of resource values. -/
def countVal (v : R) : List R → Nat
  | [] => 0
  | x :: t => (if x = v then 1 else 0) + countVal v t

/-- The resource values currently held by the live handle objects. -/
def resList (hs : List (Nat × handle R)) : List R :=
  hs.map fun p => p.2._resource

/-- How many live handle objects currently hold the resource value `v`. -/
def liveCount (w : World R) (v : R) : Nat :=
  countVal v (resList w.handles)

/-- How many times `CloseFunc` has been invoked with argument `v` so far. -/
def releasedCount (w : World R) (v : R) : Nat :=
  countVal v w.trace

end WorldModel

section Lemmas

variable {R : Type} [DecidableEq R]

@[simp]
theorem handle_mk_res (x : R) : (handle.mk x)._resource = x :=
  rfl

theorem countVal_singleton (v x : R) :
    countVal v [x] = if x = v then 1 else 0 := by
  simp [countVal]

theorem countVal_append (v : R) (l1 l2 : List R) :
    countVal v (l1 ++ l2) = countVal v l1 + countVal v l2 := by
  induction l1 with
  | nil => simp [countVal]
  | cons x t ih =>
    rw [List.cons_append]
    show (if x = v then 1 else 0) + countVal v (t ++ l2)
      = (if x = v then 1 else 0) + countVal v t + countVal v l2
    rw [ih]
    omega

theorem close_fst (Closed : R) (h : handle R) (tr : List R) :
    (handle.close Closed h tr).1 = ⟨Closed⟩ := by
  unfold handle.close
  split <;> rfl

theorem close_snd_count (Closed v : R) (hv : ¬ v = Closed) (h : handle R) (tr : List R) :
    countVal v (handle.close Closed h tr).2
      = countVal v tr + (if h._resource = v then 1 else 0) := by
  unfold handle.close
  by_cases hc : Closed = h._resource
  · have hnv : ¬ h._resource = v := fun he => hv (he ▸ hc.symm)
    simp [hc, hnv]
  · simp [hc, countVal_append, countVal]

theorem findH_mem_keys {hs : List (Nat × handle R)} {i : Nat} {h : handle R}
    (hf : findH hs i = some h) : i ∈ hs.map Prod.fst := by
  induction hs with
  | nil => simp [findH] at hf
  | cons p t ih =>
    rw [findH] at hf
    by_cases hp : p.1 = i
    · simp [hp]
    · simp only [hp, if_false] at hf
      simp [ih hf]

theorem findH_eq_none_of_not_mem {hs : List (Nat × handle R)} {i : Nat}
    (hni : i ∉ hs.map Prod.fst) : findH hs i = none := by
  induction hs with
  | nil => rfl
  | cons p t ih =>
    simp only [List.map_cons, List.mem_cons, not_or] at hni
    rw [findH, if_neg (fun he : p.1 = i => hni.1 he.symm)]
    exact ih hni.2

theorem setH_eq_of_not_mem {hs : List (Nat × handle R)} {i : Nat} (h : handle R)
    (hni : i ∉ hs.map Prod.fst) : setH hs i h = hs := by
  induction hs with
  | nil => rfl
  | cons p t ih =>
    simp only [List.map_cons, List.mem_cons, not_or] at hni
    rw [setH, if_neg (fun he : p.1 = i => hni.1 he.symm), ih hni.2]

theorem keys_setH (hs : List (Nat × handle R)) (i : Nat) (h : handle R) :
    (setH hs i h).map Prod.fst = hs.map Prod.fst := by
  induction hs with
  | nil => rfl
  | cons p t ih =>
    rw [setH]
    by_cases hp : p.1 = i
    · simp [hp, ih]
    · simp [hp, ih]

theorem findH_setH_self {hs : List (Nat × handle R)} {i : Nat} {h0 : handle R}
    (h : handle R) (hf : findH hs i = some h0) :
    findH (setH hs i h) i = some h := by
  induction hs with
  | nil => simp [findH] at hf
  | cons p t ih =>
    rw [findH] at hf
    rw [setH]
    by_cases hp : p.1 = i
    · simp [hp, findH]
    · simp only [hp, if_false] at hf ⊢
      rw [findH, if_neg hp]
      exact ih hf

theorem findH_setH_ne {hs : List (Nat × handle R)} {i j : Nat} (h : handle R)
    (hij : ¬ j = i) : findH (setH hs i h) j = findH hs j := by
  induction hs with
  | nil => rfl
  | cons p t ih =>
    rw [setH]
    by_cases hp : p.1 = i
    · rw [if_pos hp, findH, if_neg (fun he : i = j => hij he.symm), findH,
        if_neg (fun he : p.1 = j => hij (he.symm.trans hp))]
      exact ih
    · rw [if_neg hp, findH, findH]
      by_cases hq : p.1 = j
      · rw [if_pos hq, if_pos hq]
      · rw [if_neg hq, if_neg hq]
        exact ih

theorem findH_append_left {l1 l2 : List (Nat × handle R)} {i : Nat} {h : handle R}
    (hf : findH l1 i = some h) : findH (l1 ++ l2) i = some h := by
  induction l1 with
  | nil => simp [findH] at hf
  | cons p t ih =>
    rw [findH] at hf
    rw [List.cons_append, findH]
    by_cases hp : p.1 = i
    · simpa [hp] using hf
    · simp only [hp, if_false] at hf ⊢
      exact ih hf

theorem findH_append_right {l1 l2 : List (Nat × handle R)} {i : Nat}
    (hf : findH l1 i = none) : findH (l1 ++ l2) i = findH l2 i := by
  induction l1 with
  | nil => rfl
  | cons p t ih =>
    rw [findH] at hf
    rw [List.cons_append, findH]
    by_cases hp : p.1 = i
    · simp [hp] at hf
    · simp only [hp, if_false] at hf ⊢
      exact ih hf

theorem resList_append (l1 l2 : List (Nat × handle R)) :
    resList (l1 ++ l2) = resList l1 ++ resList l2 := by
  simp [resList]

theorem countVal_resList_setH {hs : List (Nat × handle R)} {i : Nat} {h0 : handle R}
    (v : R) (h : handle R) (hnd : (hs.map Prod.fst).Nodup) (hf : findH hs i = some h0) :
    countVal v (resList (setH hs i h)) + (if h0._resource = v then 1 else 0)
      = countVal v (resList hs) + (if h._resource = v then 1 else 0) := by
  induction hs with
  | nil => simp [findH] at hf
  | cons p t ih =>
    simp only [List.map_cons, List.nodup_cons] at hnd
    rw [findH] at hf
    rw [setH]
    by_cases hp : p.1 = i
    · rw [if_pos hp]
      simp only [hp, if_true] at hf
      have ht : setH t i h = t := setH_eq_of_not_mem h (hp ▸ hnd.1)
      have hh0 : h0 = p.2 := by injection hf with he; rw [he]
      subst hh0
      rw [ht]
      simp only [resList, List.map_cons, countVal]
      by_cases h1 : p.2._resource = v <;> by_cases h2 : h._resource = v <;>
        simp [h1, h2] <;> omega
    · rw [if_neg hp]
      simp only [hp, if_false] at hf
      have := ih hnd.2 hf
      simp only [resList, List.map_cons, countVal] at this ⊢
      omega

theorem keys_delH_subset {hs : List (Nat × handle R)} {i k : Nat}
    (hk : k ∈ (delH hs i).map Prod.fst) : k ∈ hs.map Prod.fst := by
  induction hs with
  | nil => simp [delH] at hk
  | cons p t ih =>
    rw [delH] at hk
    by_cases hp : p.1 = i
    · simp only [hp, if_true] at hk
      simp [ih hk]
    · simp only [hp, if_false, List.map_cons, List.mem_cons] at hk
      rcases hk with hk | hk
      · simp [hk]
      · simp [ih hk]

theorem nodup_keys_delH {hs : List (Nat × handle R)} (i : Nat)
    (hnd : (hs.map Prod.fst).Nodup) : ((delH hs i).map Prod.fst).Nodup := by
  induction hs with
  | nil => simp [delH]
  | cons p t ih =>
    simp only [List.map_cons, List.nodup_cons] at hnd
    rw [delH]
    by_cases hp : p.1 = i
    · simp only [hp, if_true]
      exact ih hnd.2
    · simp only [hp, if_false, List.map_cons, List.nodup_cons]
      exact ⟨fun hm => hnd.1 (keys_delH_subset hm), ih hnd.2⟩

theorem delH_eq_of_findH_none {hs : List (Nat × handle R)} {i : Nat}
    (hf : findH hs i = none) : delH hs i = hs := by
  induction hs with
  | nil => rfl
  | cons q u ihu =>
    rw [findH] at hf
    by_cases hq : q.1 = i
    · simp [hq] at hf
    · simp only [hq, if_false] at hf
      rw [delH, if_neg hq, ihu hf]

theorem countVal_resList_delH {hs : List (Nat × handle R)} {i : Nat} {h0 : handle R}
    (v : R) (hnd : (hs.map Prod.fst).Nodup) (hf : findH hs i = some h0) :
    countVal v (resList (delH hs i)) + (if h0._resource = v then 1 else 0)
      = countVal v (resList hs) := by
  induction hs with
  | nil => simp [findH] at hf
  | cons p t ih =>
    simp only [List.map_cons, List.nodup_cons] at hnd
    rw [findH] at hf
    rw [delH]
    by_cases hp : p.1 = i
    · rw [if_pos hp]
      simp only [hp, if_true] at hf
      have hh0 : h0 = p.2 := by injection hf with he; rw [he]
      subst hh0
      have ht : delH t i = t :=
        delH_eq_of_findH_none (findH_eq_none_of_not_mem (hp ▸ hnd.1))
      rw [ht]
      simp only [resList, List.map_cons, countVal]
      omega
    · rw [if_neg hp]
      simp only [hp, if_false] at hf
      have := ih hnd.2 hf
      simp only [resList, List.map_cons, countVal] at this ⊢
      omega

end Lemmas

section StepLemmas

variable {R : Type} [DecidableEq R]

theorem exec_step (Closed : R) (w : World R) (op : Op) (v : R)
    (hv : ¬ v = Closed) (hWF : w.WF) :
    (World.exec Closed w op).WF ∧
    liveCount (World.exec Closed w op) v + releasedCount (World.exec Closed w op) v
      ≤ liveCount w v + releasedCount w v ∧
    (Op.isRelease op = false →
      liveCount (World.exec Closed w op) v + releasedCount (World.exec Closed w op) v
        = liveCount w v + releasedCount w v) := by
  obtain ⟨hnd, hlt⟩ := hWF
  have hClv : (if Closed = v then 1 else 0) = 0 := if_neg fun he => hv he.symm
  cases op with
  | ctorDefault =>
    have hfresh : w.nextId ∉ w.handles.map Prod.fst := fun hm => lt_irrefl _ (hlt _ hm)
    have hw : World.exec Closed w Op.ctorDefault
        = ⟨w.handles ++ [(w.nextId, handle.ctorDefault Closed)], w.trace, w.nextId + 1⟩ := rfl
    rw [hw]
    have hcnt : liveCount (⟨w.handles ++ [(w.nextId, handle.ctorDefault Closed)],
        w.trace, w.nextId + 1⟩ : World R) v = liveCount w v := by
      simp only [liveCount, resList_append, countVal_append]
      have h1 : resList [(w.nextId, handle.ctorDefault Closed)] = [Closed] := rfl
      rw [h1, countVal_singleton, hClv]
      omega
    refine ⟨⟨?_, ?_⟩, ?_, fun _ => ?_⟩
    · simp only [List.map_append, List.map_cons, List.map_nil]
      rw [List.nodup_append]
      refine ⟨hnd, List.nodup_singleton _, ?_⟩
      intro a ha hb
      simp only [List.mem_singleton] at hb
      exact hfresh (hb ▸ ha)
    · simp only [List.map_append, List.map_cons, List.map_nil]
      intro k hk
      rcases List.mem_append.mp hk with hk | hk
      · exact Nat.lt_succ_of_lt (hlt k hk)
      · simp only [List.mem_singleton] at hk
        exact hk ▸ Nat.lt_succ_self _
    · rw [hcnt]
      exact le_refl _
    · rw [hcnt]
      rfl
  | moveCtor src =>
    cases hf : findH w.handles src with
    | none =>
      have hw : World.exec Closed w (Op.moveCtor src) = w := by
        simp only [World.exec, hf]
      rw [hw]
      exact ⟨⟨hnd, hlt⟩, le_refl _, fun _ => rfl⟩
    | some h =>
      have hfresh : w.nextId ∉ w.handles.map Prod.fst := fun hm => lt_irrefl _ (hlt _ hm)
      have hw : World.exec Closed w (Op.moveCtor src)
          = ⟨setH w.handles src (handle.mk Closed)
              ++ [(w.nextId, handle.mk h._resource)], w.trace, w.nextId + 1⟩ := by
        simp only [World.exec, hf]
        rfl
      rw [hw]
      have hset := countVal_resList_setH v (handle.mk Closed) hnd hf
      rw [handle_mk_res, hClv] at hset
      have hcnt : liveCount (⟨setH w.handles src (handle.mk Closed)
          ++ [(w.nextId, handle.mk h._resource)], w.trace, w.nextId + 1⟩ : World R) v
          = liveCount w v := by
        simp only [liveCount, resList_append, countVal_append]
        have h1 : resList [(w.nextId, handle.mk h._resource)] = [h._resource] := rfl
        rw [h1, countVal_singleton]
        omega
      refine ⟨⟨?_, ?_⟩, ?_, fun _ => ?_⟩
      · simp only [List.map_append, keys_setH, List.map_cons, List.map_nil]
        rw [List.nodup_append]
        refine ⟨hnd, List.nodup_singleton _, ?_⟩
        intro a ha hb
        simp only [List.mem_singleton] at hb
        exact hfresh (hb ▸ ha)
      · simp only [List.map_append, keys_setH, List.map_cons, List.map_nil]
        intro k hk
        rcases List.mem_append.mp hk with hk | hk
        · exact Nat.lt_succ_of_lt (hlt k hk)
        · simp only [List.mem_singleton] at hk
          exact hk ▸ Nat.lt_succ_self _
      · rw [hcnt]
        exact le_refl _
      · rw [hcnt]
        rfl
  | moveAssign dst src =>
    by_cases hds : dst = src
    · have hw : World.exec Closed w (Op.moveAssign dst src) = w := by
        simp only [World.exec, if_pos hds]
      rw [hw]
      exact ⟨⟨hnd, hlt⟩, le_refl _, fun _ => rfl⟩
    · cases hfd : findH w.handles dst with
      | none =>
        have hw : World.exec Closed w (Op.moveAssign dst src) = w := by
          simp only [World.exec, if_neg hds, hfd]
        rw [hw]
        exact ⟨⟨hnd, hlt⟩, le_refl _, fun _ => rfl⟩
      | some hd =>
        cases hfs : findH w.handles src with
        | none =>
          have hw : World.exec Closed w (Op.moveAssign dst src) = w := by
            simp only [World.exec, if_neg hds, hfd, hfs]
          rw [hw]
          exact ⟨⟨hnd, hlt⟩, le_refl _, fun _ => rfl⟩
        | some hsrc =>
          have hw : World.exec Closed w (Op.moveAssign dst src)
              = ⟨setH (setH w.handles dst (handle.mk hsrc._resource)) src (handle.mk Closed),
                 (handle.close Closed hd w.trace).2, w.nextId⟩ := by
            simp only [World.exec, if_neg hds, hfd, hfs]
            have hm2 : (handle.moveAssign Closed hd hsrc w.trace).2.1 = handle.mk Closed := by
              simp only [handle.moveAssign, close_fst, handle_mk_res]
            rw [hm2]
            rfl
          rw [hw]
          have hset1 := countVal_resList_setH v
            (handle.mk hsrc._resource) hnd hfd
          rw [handle_mk_res] at hset1
          have hnd1 : ((setH w.handles dst (handle.mk hsrc._resource)).map Prod.fst).Nodup := by
            rw [keys_setH]
            exact hnd
          have hfs1 : findH (setH w.handles dst (handle.mk hsrc._resource)) src = some hsrc := by
            rw [findH_setH_ne _ fun he : src = dst => hds he.symm]
            exact hfs
          have hset2 := countVal_resList_setH v (handle.mk Closed) hnd1 hfs1
          rw [handle_mk_res, hClv] at hset2
          have htr := close_snd_count Closed v hv hd w.trace
          refine ⟨⟨?_, ?_⟩, ?_, fun _ => ?_⟩
          · simp only [keys_setH]
            exact hnd
          · simp only [keys_setH]
            exact hlt
          · simp only [liveCount, releasedCount]
            rw [htr]
            omega
          · simp only [liveCount, releasedCount]
            rw [htr]
            omega
  | close i =>
    cases hf : findH w.handles i with
    | none =>
      have hw : World.exec Closed w (Op.close i) = w := by
        simp only [World.exec, hf]
      rw [hw]
      exact ⟨⟨hnd, hlt⟩, le_refl _, fun _ => rfl⟩
    | some h =>
      have hw : World.exec Closed w (Op.close i)
          = ⟨setH w.handles i (handle.mk Closed),
             (handle.close Closed h w.trace).2, w.nextId⟩ := by
        simp only [World.exec, hf, close_fst]
      rw [hw]
      have hset := countVal_resList_setH v (handle.mk Closed) hnd hf
      rw [handle_mk_res, hClv] at hset
      have htr := close_snd_count Closed v hv h w.trace
      refine ⟨⟨?_, ?_⟩, ?_, fun _ => ?_⟩
      · simp only [keys_setH]
        exact hnd
      · simp only [keys_setH]
        exact hlt
      · simp only [liveCount, releasedCount]
        rw [htr]
        omega
      · simp only [liveCount, releasedCount]
        rw [htr]
        omega
  | release i =>
    cases hf : findH w.handles i with
    | none =>
      have hw : World.exec Closed w (Op.release i) = w := by
        simp only [World.exec, hf]
      rw [hw]
      exact ⟨⟨hnd, hlt⟩, le_refl _, fun _ => rfl⟩
    | some h =>
      have hw : World.exec Closed w (Op.release i)
          = ⟨setH w.handles i (handle.mk Closed), w.trace, w.nextId⟩ := by
        simp only [World.exec, hf]
        rfl
      rw [hw]
      have hset := countVal_resList_setH v (handle.mk Closed) hnd hf
      rw [handle_mk_res, hClv] at hset
      refine ⟨⟨?_, ?_⟩, ?_, fun hrel => ?_⟩
      · simp only [keys_setH]
        exact hnd
      · simp only [keys_setH]
        exact hlt
      · simp only [liveCount, releasedCount]
        omega
      · exact Bool.noConfusion hrel
  | dtor i =>
    cases hf : findH w.handles i with
    | none =>
      have hw : World.exec Closed w (Op.dtor i) = w := by
        simp only [World.exec, hf]
      rw [hw]
      exact ⟨⟨hnd, hlt⟩, le_refl _, fun _ => rfl⟩
    | some h =>
      have hw : World.exec Closed w (Op.dtor i)
          = ⟨delH w.handles i, (handle.close Closed h w.trace).2, w.nextId⟩ := by
        simp only [World.exec, hf, handle.dtor]
      rw [hw]
      have hdel := countVal_resList_delH v hnd hf
      have htr := close_snd_count Closed v hv h w.trace
      refine ⟨⟨?_, ?_⟩, ?_, fun _ => ?_⟩
      · exact nodup_keys_delH i hnd
      · intro k hk
        exact hlt k (keys_delH_subset hk)
      · simp only [liveCount, releasedCount]
        rw [htr]
        omega
      · simp only [liveCount, releasedCount]
        rw [htr]
        omega

theorem execList_step (Closed : R) (v : R) (hv : ¬ v = Closed) (ops : List Op) :
    ∀ w : World R, w.WF →
    (World.execList Closed w ops).WF ∧
    liveCount (World.execList Closed w ops) v + releasedCount (World.execList Closed w ops) v
      ≤ liveCount w v + releasedCount w v ∧
    ((∀ op ∈ ops, Op.isRelease op = false) →
      liveCount (World.execList Closed w ops) v
          + releasedCount (World.execList Closed w ops) v
        = liveCount w v + releasedCount w v) := by
  induction ops with
  | nil =>
    intro w hWF
    exact ⟨hWF, le_refl _, fun _ => rfl⟩
  | cons op ops ih =>
    intro w hWF
    obtain ⟨h1, h2, h3⟩ := exec_step Closed w op v hv hWF
    obtain ⟨g1, g2, g3⟩ := ih (World.exec Closed w op) h1
    rw [World.execList]
    refine ⟨g1, le_trans g2 h2, fun hall => ?_⟩
    rw [g3 fun o ho => hall o (List.mem_cons_of_mem _ ho),
      h3 (hall op (List.mem_cons_self _ _))]

end StepLemmas

section ExceptModel

variable {R : Type} [DecidableEq R]

/-- The same step function as `World.exec`, but in an exception monad: a C++
`throw` anywhere in the member functions of `w::handle` would appear here as
`Except.error`.  Every member function of the class is declared `noexcept`
and contains no `throw` and no fallible callee (the template parameters
require `Resource` to be nothrow-copyable and nothrow-swappable and
`CloseFunc` to be non-throwing), so every branch returns `Except.ok`. -/
def World.execE (Closed : R) (w : World R) : Op → Except String (World R)
  | .ctorDefault =>
    Except.ok ⟨w.handles ++ [(w.nextId, handle.ctorDefault Closed)], w.trace, w.nextId + 1⟩
  | .moveCtor src =>
    match findH w.handles src with
    | some h =>
      Except.ok ⟨setH w.handles src (handle.moveCtor Closed h).2
          ++ [(w.nextId, (handle.moveCtor Closed h).1)],
        w.trace, w.nextId + 1⟩
    | none => Except.ok w
  | .moveAssign dst src =>
    if dst = src then Except.ok w
    else
      match findH w.handles dst, findH w.handles src with
      | some hd, some hs =>
        Except.ok ⟨setH (setH w.handles dst (handle.moveAssign Closed hd hs w.trace).1) src
            (handle.moveAssign Closed hd hs w.trace).2.1,
          (handle.moveAssign Closed hd hs w.trace).2.2, w.nextId⟩
      | some _, none => Except.ok w
      | none, _ => Except.ok w
  | .close i =>
    match findH w.handles i with
    | some h =>
      Except.ok ⟨setH w.handles i (handle.close Closed h w.trace).1,
        (handle.close Closed h w.trace).2, w.nextId⟩
    | none => Except.ok w
  | .release i =>
    match findH w.handles i with
    | some h =>
      Except.ok ⟨setH w.handles i (handle.release Closed h).2, w.trace, w.nextId⟩
    | none => Except.ok w
  | .dtor i =>
    match findH w.handles i with
    | some h =>
      Except.ok ⟨delH w.handles i, (handle.dtor Closed h w.trace).2, w.nextId⟩
    | none => Except.ok w

end ExceptModel

section Claims

/-- C3: for every handle (empty or owning), move-assigning the handle onto
itself is a no-op: the `&other != this` guard of `operator=` (handle.hpp line
78) makes the whole world — the object's value and the `CloseFunc` trace —
unchanged, so the release operation is not invoked. -/
theorem handle_self_move_assign_noop {R : Type} [DecidableEq R] (Closed : R)
    (w : World R) (i : Nat) :
    World.exec Closed w (Op.moveAssign i i) = w := by
  simp only [World.exec]
  rw [if_pos trivial]

/-- C8: no operation of the handle can fail.  Running any operation on any
world in the exception monad (`World.execE`, where a C++ `throw` would be an
`Except.error`) always returns `Except.ok` of the pure result: every member of
`w::handle` is `noexcept`, with no `throw` and no fallible callee under the
template's preconditions (nothrow-copyable, nothrow-swappable `Resource`,
non-throwing `CloseFunc`). -/
theorem handle_ops_never_fail {R : Type} [DecidableEq R] (Closed : R)
    (w : World R) (op : Op) :
    World.execE Closed w op = Except.ok (World.exec Closed w op) := by
  cases op with
  | ctorDefault => rfl
  | moveCtor src =>
    simp only [World.execE, World.exec]
    cases findH w.handles src <;> rfl
  | moveAssign dst src =>
    simp only [World.execE, World.exec]
    by_cases hds : dst = src
    · rw [if_pos hds, if_pos hds]
    · rw [if_neg hds, if_neg hds]
      cases findH w.handles dst <;> cases findH w.handles src <;> rfl
  | close i =>
    simp only [World.execE, World.exec]
    cases findH w.handles i <;> rfl
  | release i =>
    simp only [World.execE, World.exec]
    cases findH w.handles i <;> rfl
  | dtor i =>
    simp only [World.execE, World.exec]
    cases findH w.handles i <;> rfl

/-- C9: constructing an owning handle from the sentinel value itself yields a
handle indistinguishable from an empty-constructed one (the default
constructor literally delegates to `handle(Closed)`, handle.hpp line 46): its
boolean test is false, and closing or destroying it never invokes the release
operation (the trace is unchanged). -/
theorem handle_sentinel_ctor_is_empty {R : Type} [DecidableEq R] (Closed : R)
    (tr : List R) :
    handle.ctor Closed = handle.ctorDefault Closed ∧
    handle.toBool Closed (handle.ctor Closed) = false ∧
    handle.close Closed (handle.ctor Closed) tr = (⟨Closed⟩, tr) ∧
    handle.dtor Closed (handle.ctor Closed) tr = (⟨Closed⟩, tr) := by
  refine ⟨rfl, ?_, ?_, ?_⟩
  · simp [handle.toBool, handle.ctor]
  · simp [handle.close, handle.ctor]
  · simp [handle.dtor, handle.close, handle.ctor]

/-- C10: the strict numeric parser for unsigned integer types accepts some
strings with a leading minus sign and returns the modularly wrapped
(two's-complement) value instead of throwing: `strtoull` negates rather than
rejects negative input and reports no `ERANGE` when the magnitude fits.  For
`T = unsigned long long`, `"-1"` parses to 2^64 - 1; for `T` = an 8-bit
unsigned type (max 255), `"-18446744073709551615"` wraps modulo 2^64 to 1,
which passes the range check and is returned. -/
theorem wx_number_unsigned_wraps_negative :
    wx.number ULLONG_MAX ['-', '1'] 10 = Except.ok (2 ^ 64 - 1) ∧
    wx.number 255 ['-', '1', '8', '4', '4', '6', '7', '4', '4', '0', '7', '3', '7',
      '0', '9', '5', '5', '1', '6', '1', '5'] 10 = Except.ok 1 := by
  constructor
  · rfl
  · rfl

/-- C4: `release()` (detach) returns the value the handle held before the call
(owned value, or the sentinel if empty), leaves the handle holding the
sentinel, and never leads to a `CloseFunc` invocation for the detached value:
the trace is unchanged by the detach itself and by the handle's subsequent
destruction. -/
theorem handle_detach_spec {R : Type} [DecidableEq R] (Closed : R) (w : World R)
    (i : Nat) (h : handle R) (hi : findH w.handles i = some h) :
    (handle.release Closed h).1 = handle.get h ∧
    (World.exec Closed w (Op.release i)).trace = w.trace ∧
    findH (World.exec Closed w (Op.release i)).handles i = some ⟨Closed⟩ ∧
    (World.exec Closed (World.exec Closed w (Op.release i)) (Op.dtor i)).trace
      = w.trace := by
  have hw : World.exec Closed w (Op.release i)
      = ⟨setH w.handles i (handle.mk Closed), w.trace, w.nextId⟩ := by
    simp only [World.exec, hi]
    rfl
  have hfi : findH (setH w.handles i (handle.mk Closed)) i = some (handle.mk Closed) :=
    findH_setH_self _ hi
  refine ⟨rfl, ?_, ?_, ?_⟩
  · rw [hw]
  · rw [hw]
    exact hfi
  · rw [hw]
    have hw2 : World.exec Closed
        (⟨setH w.handles i (handle.mk Closed), w.trace, w.nextId⟩ : World R) (Op.dtor i)
        = ⟨delH (setH w.handles i (handle.mk Closed)) i,
           (handle.close Closed (handle.mk Closed) w.trace).2, w.nextId⟩ := by
      simp only [World.exec, hfi, handle.dtor]
    rw [hw2]
    show (handle.close Closed (handle.mk Closed) w.trace).2 = w.trace
    simp [handle.close]

/-- Witness for C4 at a concrete instance: a world with one handle owning 5
(sentinel -1). -/
theorem handle_detach_spec_witness :
    (handle.release (-1 : Int) ⟨5⟩).1 = handle.get ⟨5⟩ ∧
    (World.exec (-1 : Int) ⟨[(0, ⟨5⟩)], [], 1⟩ (Op.release 0)).trace = [] ∧
    findH (World.exec (-1 : Int) ⟨[(0, ⟨5⟩)], [], 1⟩ (Op.release 0)).handles 0
      = some ⟨-1⟩ ∧
    (World.exec (-1 : Int) (World.exec (-1 : Int) ⟨[(0, ⟨5⟩)], [], 1⟩ (Op.release 0))
        (Op.dtor 0)).trace = [] :=
  handle_detach_spec (-1 : Int) ⟨[(0, ⟨5⟩)], [], 1⟩ 0 ⟨5⟩ rfl

/-- C5: `close()` on a handle owning `r ≠ Closed` invokes `CloseFunc` exactly
once on `r` (the trace is extended by exactly one entry `r`) and leaves the
handle holding the sentinel; `close()` on an empty handle is a no-op that
never invokes `CloseFunc` for the sentinel value; and destruction is
equivalent to `close()` (the destructor body is exactly a `close()` call). -/
theorem handle_close_spec {R : Type} [DecidableEq R] (Closed r : R) (tr : List R)
    (h : r ≠ Closed) :
    handle.close Closed ⟨r⟩ tr = (⟨Closed⟩, tr ++ [r]) ∧
    countVal r (handle.close Closed ⟨r⟩ tr).2 = countVal r tr + 1 ∧
    handle.close Closed ⟨Closed⟩ tr = (⟨Closed⟩, tr) ∧
    handle.dtor Closed ⟨r⟩ tr = handle.close Closed ⟨r⟩ tr := by
  have hcl : handle.close Closed (⟨r⟩ : handle R) tr = (⟨Closed⟩, tr ++ [r]) := by
    simp only [handle.close, handle_mk_res]
    rw [if_pos (fun he : Closed = r => h he.symm)]
  refine ⟨hcl, ?_, ?_, rfl⟩
  · rw [hcl, countVal_append, countVal_singleton, if_pos rfl]
  · simp [handle.close]

/-- Witness for C5 at a concrete instance: resource value 5, sentinel -1,
empty starting trace. -/
theorem handle_close_spec_witness :
    handle.close (-1 : Int) ⟨5⟩ [] = (⟨-1⟩, [5]) ∧
    countVal (5 : Int) (handle.close (-1 : Int) ⟨5⟩ []).2 = countVal (5 : Int) [] + 1 ∧
    handle.close (-1 : Int) ⟨-1⟩ [] = (⟨-1⟩, []) ∧
    handle.dtor (-1 : Int) ⟨5⟩ [] = handle.close (-1 : Int) ⟨5⟩ [] :=
  handle_close_spec (-1 : Int) 5 [] (by decide)

/-- C2: move-assigning handle `B` (owning `v2`) into a distinct handle `A`
(owning `v1`, with `v1 ≠ v2`, both non-sentinel) invokes `CloseFunc` on `v1`
exactly once (the trace is extended by exactly the one entry `v1`), and
afterwards `A` holds `v2` and `B` holds the sentinel. -/
theorem handle_move_assign_transfers {R : Type} [DecidableEq R] (Closed : R)
    (w : World R) (A B : Nat) (v1 v2 : R) (hAB : A ≠ B)
    (hA : findH w.handles A = some ⟨v1⟩) (hB : findH w.handles B = some ⟨v2⟩)
    (h1 : v1 ≠ Closed) (h2 : v2 ≠ Closed) (h12 : v1 ≠ v2) :
    findH (World.exec Closed w (Op.moveAssign A B)).handles A = some ⟨v2⟩ ∧
    findH (World.exec Closed w (Op.moveAssign A B)).handles B = some ⟨Closed⟩ ∧
    (World.exec Closed w (Op.moveAssign A B)).trace = w.trace ++ [v1] := by
  have hw : World.exec Closed w (Op.moveAssign A B)
      = ⟨setH (setH w.handles A (handle.mk v2)) B (handle.mk Closed),
         (handle.close Closed (handle.mk v1) w.trace).2, w.nextId⟩ := by
    simp only [World.exec, if_neg hAB, hA, hB]
    have hm2 : (handle.moveAssign Closed (⟨v1⟩ : handle R) ⟨v2⟩ w.trace).2.1
        = handle.mk Closed := by
      simp only [handle.moveAssign, close_fst, handle_mk_res]
    rw [hm2]
    rfl
  have htr : (handle.close Closed (handle.mk v1) w.trace).2 = w.trace ++ [v1] := by
    simp only [handle.close, handle_mk_res]
    rw [if_pos (fun he : Closed = v1 => h1 he.symm)]
  refine ⟨?_, ?_, ?_⟩
  · rw [hw]
    show findH (setH (setH w.handles A (handle.mk v2)) B (handle.mk Closed)) A
      = some ⟨v2⟩
    rw [findH_setH_ne _ hAB]
    exact findH_setH_self _ hA
  · rw [hw]
    show findH (setH (setH w.handles A (handle.mk v2)) B (handle.mk Closed)) B
      = some ⟨Closed⟩
    have hB1 : findH (setH w.handles A (handle.mk v2)) B = some (handle.mk v2) := by
      rw [findH_setH_ne _ (fun he : B = A => hAB he.symm)]
      exact hB
    exact findH_setH_self _ hB1
  · rw [hw]
    exact htr

/-- Witness for C2 at a concrete instance: two handles owning 7 and 9
(sentinel -1). -/
theorem handle_move_assign_transfers_witness :
    findH (World.exec (-1 : Int) ⟨[(0, ⟨7⟩), (1, ⟨9⟩)], [], 2⟩
      (Op.moveAssign 0 1)).handles 0 = some ⟨9⟩ ∧
    findH (World.exec (-1 : Int) ⟨[(0, ⟨7⟩), (1, ⟨9⟩)], [], 2⟩
      (Op.moveAssign 0 1)).handles 1 = some ⟨-1⟩ ∧
    (World.exec (-1 : Int) ⟨[(0, ⟨7⟩), (1, ⟨9⟩)], [], 2⟩
      (Op.moveAssign 0 1)).trace = [] ++ [7] :=
  handle_move_assign_transfers (-1 : Int) ⟨[(0, ⟨7⟩), (1, ⟨9⟩)], [], 2⟩ 0 1 7 9
    (by decide) rfl rfl (by decide) (by decide) (by decide)

/-- C6: move-constructing a new handle from a handle owning a non-sentinel
value `v` leaves the source empty (it reports non-owning through
`operator bool`) and the new handle holding `v` (`get()` returns `v`); the
move itself does not invoke `CloseFunc`, and destroying the new handle then
invokes `CloseFunc` exactly once with argument `v`. -/
theorem handle_move_ctor_spec {R : Type} [DecidableEq R] (Closed : R) (w : World R)
    (i : Nat) (v : R) (hWF : w.WF) (hi : findH w.handles i = some ⟨v⟩)
    (hv : v ≠ Closed) :
    (findH (World.exec Closed w (Op.moveCtor i)).handles i).map (handle.toBool Closed)
      = some false ∧
    findH (World.exec Closed w (Op.moveCtor i)).handles i = some ⟨Closed⟩ ∧
    (findH (World.exec Closed w (Op.moveCtor i)).handles w.nextId).map handle.get
      = some v ∧
    (World.exec Closed w (Op.moveCtor i)).trace = w.trace ∧
    (World.exec Closed (World.exec Closed w (Op.moveCtor i)) (Op.dtor w.nextId)).trace
      = w.trace ++ [v] ∧
    countVal v (World.exec Closed (World.exec Closed w (Op.moveCtor i))
        (Op.dtor w.nextId)).trace
      = countVal v w.trace + 1 := by
  obtain ⟨hnd, hlt⟩ := hWF
  have hw : World.exec Closed w (Op.moveCtor i)
      = ⟨setH w.handles i (handle.mk Closed) ++ [(w.nextId, handle.mk v)],
         w.trace, w.nextId + 1⟩ := by
    simp only [World.exec, hi]
    rfl
  have hA : findH (setH w.handles i (handle.mk Closed) ++ [(w.nextId, handle.mk v)]) i
      = some (handle.mk Closed) :=
    findH_append_left (findH_setH_self _ hi)
  have hfresh : w.nextId ∉ (setH w.handles i (handle.mk Closed)).map Prod.fst := by
    rw [keys_setH]
    exact fun hm => lt_irrefl _ (hlt _ hm)
  have hB : findH (setH w.handles i (handle.mk Closed) ++ [(w.nextId, handle.mk v)])
      w.nextId = some (handle.mk v) := by
    rw [findH_append_right (findH_eq_none_of_not_mem hfresh), findH]
    rw [if_pos rfl]
  have hdt : World.exec Closed
      (⟨setH w.handles i (handle.mk Closed) ++ [(w.nextId, handle.mk v)],
        w.trace, w.nextId + 1⟩ : World R) (Op.dtor w.nextId)
      = ⟨delH (setH w.handles i (handle.mk Closed) ++ [(w.nextId, handle.mk v)]) w.nextId,
         (handle.close Closed (handle.mk v) w.trace).2, w.nextId + 1⟩ := by
    simp only [World.exec, hB, handle.dtor]
  have hclv : (handle.close Closed (handle.mk v) w.trace).2 = w.trace ++ [v] := by
    simp only [handle.close, handle_mk_res]
    rw [if_pos (fun he : Closed = v => hv he.symm)]
  refine ⟨?_, ?_, ?_, ?_, ?_, ?_⟩
  · rw [hw]
    show (findH (setH w.handles i (handle.mk Closed) ++ [(w.nextId, handle.mk v)]) i).map
      (handle.toBool Closed) = some false
    rw [hA]
    simp [handle.toBool]
  · rw [hw]
    exact hA
  · rw [hw]
    show (findH (setH w.handles i (handle.mk Closed) ++ [(w.nextId, handle.mk v)])
      w.nextId).map handle.get = some v
    rw [hB]
    simp [handle.get]
  · rw [hw]
  · rw [hw, hdt]
    exact hclv
  · rw [hw, hdt]
    show countVal v (handle.close Closed (handle.mk v) w.trace).2
      = countVal v w.trace + 1
    rw [hclv, countVal_append, countVal_singleton, if_pos rfl]

/-- Witness for C6 at a concrete instance: a single handle owning 7
(sentinel -1), moved into a fresh handle with identity 1, which is then
destroyed. -/
theorem handle_move_ctor_spec_witness :
    (findH (World.exec (-1 : Int) ⟨[(0, ⟨7⟩)], [], 1⟩ (Op.moveCtor 0)).handles 0).map
      (handle.toBool (-1)) = some false ∧
    findH (World.exec (-1 : Int) ⟨[(0, ⟨7⟩)], [], 1⟩ (Op.moveCtor 0)).handles 0
      = some ⟨-1⟩ ∧
    (findH (World.exec (-1 : Int) ⟨[(0, ⟨7⟩)], [], 1⟩ (Op.moveCtor 0)).handles 1).map
      handle.get = some 7 ∧
    (World.exec (-1 : Int) ⟨[(0, ⟨7⟩)], [], 1⟩ (Op.moveCtor 0)).trace = [] ∧
    (World.exec (-1 : Int) (World.exec (-1 : Int) ⟨[(0, ⟨7⟩)], [], 1⟩ (Op.moveCtor 0))
        (Op.dtor 1)).trace = [] ++ [7] ∧
    countVal (7 : Int) (World.exec (-1 : Int)
        (World.exec (-1 : Int) ⟨[(0, ⟨7⟩)], [], 1⟩ (Op.moveCtor 0)) (Op.dtor 1)).trace
      = countVal (7 : Int) [] + 1 :=
  handle_move_ctor_spec (-1 : Int) ⟨[(0, ⟨7⟩)], [], 1⟩ 0 7 (by decide) rfl (by decide)

/-- C1: for every sequence of moves (and closes, default-constructions and
destructions — any operations except an ownership-detaching `release()`)
among the handles of a well-formed world that starts with exactly one handle
owning the non-sentinel value `v` and no prior `CloseFunc` call on `v`, once
all handles have been destroyed `CloseFunc` has been invoked on `v` exactly
once in total, regardless of how many intermediate moves occurred. -/
theorem handle_release_exactly_once {R : Type} [DecidableEq R] (Closed v : R)
    (hv : v ≠ Closed) (w0 : World R) (hWF : w0.WF)
    (hone : liveCount w0 v = 1) (hzero : releasedCount w0 v = 0)
    (ops : List Op) (hmv : ∀ op ∈ ops, Op.isRelease op = false)
    (hdead : (World.execList Closed w0 ops).handles = []) :
    releasedCount (World.execList Closed w0 ops) v = 1 := by
  obtain ⟨-, -, heq⟩ := execList_step Closed v hv ops w0 hWF
  have hsum := heq hmv
  have hlive : liveCount (World.execList Closed w0 ops) v = 0 := by
    unfold liveCount
    rw [hdead]
    rfl
  omega

/-- Witness for C1 at a concrete instance: two handles, one owning 5
(sentinel -1); the resource is moved into a fresh handle, move-assigned
back, and all three objects are destroyed; `CloseFunc` runs on 5 once. -/
theorem handle_release_exactly_once_witness :
    releasedCount (World.execList (-1 : Int) ⟨[(0, ⟨5⟩), (1, ⟨-1⟩)], [], 2⟩
      [Op.moveCtor 0, Op.moveAssign 1 2, Op.dtor 0, Op.dtor 1, Op.dtor 2]) 5 = 1 :=
  handle_release_exactly_once (-1 : Int) 5 (by decide) ⟨[(0, ⟨5⟩), (1, ⟨-1⟩)], [], 2⟩
    (by decide) (by decide) (by decide)
    [Op.moveCtor 0, Op.moveAssign 1 2, Op.dtor 0, Op.dtor 1, Op.dtor 2]
    (by decide) (by decide)

/-- C7: at any point during any sequence of handle operations (construction,
move, close, detach, destruction — the full operation alphabet; copying does
not exist, the source deletes both copy operations), at most one live handle
holds a given non-sentinel resource value, provided at most one did initially
and `CloseFunc` had not already run on it. -/
theorem handle_at_most_one_owner {R : Type} [DecidableEq R] (Closed u : R)
    (hu : u ≠ Closed) (w0 : World R) (hWF : w0.WF)
    (hinit : liveCount w0 u + releasedCount w0 u ≤ 1) (ops : List Op) :
    liveCount (World.execList Closed w0 ops) u ≤ 1 := by
  obtain ⟨-, hle, -⟩ := execList_step Closed u hu ops w0 hWF
  omega

/-- Witness for C7 at a concrete instance: one handle owning 7 (sentinel -1),
detached, then a fresh default-constructed handle, then both destroyed. -/
theorem handle_at_most_one_owner_witness :
    liveCount (World.execList (-1 : Int) ⟨[(0, ⟨7⟩)], [], 1⟩
      [Op.release 0, Op.ctorDefault, Op.dtor 0, Op.dtor 1]) 7 ≤ 1 :=
  handle_at_most_one_owner (-1 : Int) 7 (by decide) ⟨[(0, ⟨7⟩)], [], 1⟩
    (by decide) (by decide) [Op.release 0, Op.ctorDefault, Op.dtor 0, Op.dtor 1]

end Claims
